import Mathlib

/-!
Verification of the syllabus-to-calendar extraction pipeline
(`src/calender.py`).

The core of the program is a pure pipeline over strings and small event
lists: two regex extractors (`ABS_DATE_RE`, `WEEK_RE`), a context-window
title inferencer (`window_context`, `extract_title`), an inclusive
semester range filter (`filter_by_semester`), and a table builder
(`build_calendar_df`).  This file shallowly embeds those functions:

* Python `datetime.date` is embedded as `PDate` (a year/month/day triple
  with the proleptic-Gregorian successor/predecessor arithmetic that
  `datetime.timedelta` addition performs).
* The two regular expressions are embedded as hand-compiled backtracking
  matchers over `List Char`, specialized to the exact patterns in the
  source, with Python's leftmost, non-overlapping `finditer`/`findall`
  scan order.  Python's `\d`/`\w`/`\s` classes are taken at their ASCII
  restriction (every theorem below only quantifies texts over this
  model).  The patterns all begin and end with a word-class character,
  so the `\b` anchors reduce to "previous char is not a word char" /
  "next char is not a word char".
* `dateutil.parser.parse` and PDF text extraction are external
  collaborators, not part of this repository; the date parser is
  modelled from the spec (see `parseDate`).
-/

/-- ASCII decimal digit, the ASCII restriction of Python's `\d`. -/
def isDigitC (c : Char) : Bool := '0' ≤ c && c ≤ '9'

/-- ASCII letter. -/
def isAlphaC (c : Char) : Bool := ('a' ≤ c && c ≤ 'z') || ('A' ≤ c && c ≤ 'Z')

/-- ASCII restriction of Python's `\w` (letters, digits, underscore). -/
def isWordC (c : Char) : Bool := isAlphaC c || isDigitC c || c = '_'

/-- ASCII restriction of Python's `\s`. -/
def isSpaceC (c : Char) : Bool :=
  c = ' ' || c = '\t' || c = '\n' || c = '\r' || c = '\x0b' || c = '\x0c'

/-- ASCII lower-casing of one character, as `str.lower` does on ASCII. -/
def lowerC (c : Char) : Char :=
  if 'A' ≤ c && c ≤ 'Z' then Char.ofNat (c.toNat + 32) else c

/-- ASCII upper-casing of one character. -/
def upperC (c : Char) : Char :=
  if 'a' ≤ c && c ≤ 'z' then Char.ofNat (c.toNat - 32) else c

/-- Python `str.lower()`. -/
def pyLower (s : String) : String := ⟨s.data.map lowerC⟩

/-- Python `str.strip()`: drop whitespace from both ends. -/
def pyStrip (s : String) : String :=
  ⟨((s.data.dropWhile isSpaceC).reverse.dropWhile isSpaceC).reverse⟩

/-- Python `str.capitalize()`: first character upper-cased, rest lower-cased. -/
def pyCapitalize (s : String) : String :=
  match s.data with
  | [] => ""
  | c :: rest => ⟨upperC c :: rest.map lowerC⟩

/-- Python `int()` on a string of decimal digits. -/
def pyInt (s : String) : Nat :=
  s.data.foldl (fun a c => a * 10 + (c.toNat - 48)) 0

/-- Auxiliary scan for Python `str.find`: the first index `≥ i` (counting
from the start of the original haystack) at which `needle` is a prefix of
the remaining haystack; `none` if there is no occurrence. -/
def findSubAux (needle : List Char) : List Char → Nat → Option Nat
  | [], i => if needle.isPrefixOf [] then some i else none
  | c :: t, i => if needle.isPrefixOf (c :: t) then some i else findSubAux needle t (i + 1)

/-- Python `hay.find(needle)`, with `-1` rendered as `none`. -/
def pyFind (hay needle : String) : Option Nat :=
  findSubAux needle.data hay.data 0

/-- Python `needle in hay` (substring containment). -/
def strContains (hay needle : String) : Bool := (pyFind hay needle).isSome

/-- The lowered label occurs at character position `i` of the lowered text.
This is the case-insensitive positional occurrence that
`text.lower().find(keyword.lower())` searches for. -/
def occursAt (text kw : String) (i : Nat) : Bool :=
  (pyLower kw).data.isPrefixOf ((pyLower text).data.drop i)

/-- The label occurs case-insensitively somewhere in the text. -/
def occursCI (text kw : String) : Bool :=
  (List.range (text.length + 1)).any (fun i => occursAt text kw i)

/-- Case-sensitive substring occurrence.  This definition follows the
spec's words ("case-sensitive substring search") and exists only to be
compared against the behaviour of the code's `window_context`. -/
def occursSubCS (needle hay : String) : Bool :=
  (List.range (hay.length + 1)).any (fun i => needle.data.isPrefixOf (hay.data.drop i))

/-- Python slice-and-replace `text[a:b].replace("\n", " ")` for `a ≤ b`
(both already clamped below by 0; `take` clamps at the end of the text). -/
def pySliceReplace (text : String) (a b : Nat) : String :=
  ⟨((text.data.drop a).take (b - a)).map (fun c => if c = '\n' then ' ' else c)⟩

/-- Code-point lexicographic comparison of character lists: exactly the
string `<=` that Python uses and that `pandas.sort_values` sorts by. -/
def charsLe : List Char → List Char → Bool
  | [], _ => true
  | _ :: _, [] => false
  | a :: as, b :: bs =>
    if a.toNat < b.toNat then true
    else if b.toNat < a.toNat then false
    else charsLe as bs

/-- Comparison of table rows by their first column (the ISO date string),
the sort key of `df.sort_values("Date")`. -/
def dateStrLe (r s : String × String) : Bool := charsLe r.1.data s.1.data

/-- Insert into a list sorted by `le`. -/
def insertRow {α : Type} (le : α → α → Bool) (x : α) : List α → List α
  | [] => [x]
  | y :: ys => if le x y then x :: y :: ys else y :: insertRow le x ys

/-- Comparison sort (used to model `DataFrame.sort_values`; any comparison
sort produces the same sorted key column, and no claim depends on the
relative order of equal keys). -/
def sortBy {α : Type} (le : α → α → Bool) : List α → List α
  | [] => []
  | x :: xs => insertRow le x (sortBy le xs)

/-- Concatenation of the per-element lists, in order (the shape of a
Python `for` loop appending several items per iteration). -/
def flatMapL {α β : Type} : List α → (α → List β) → List β
  | [], _ => []
  | a :: as, f => f a ++ flatMapL as f

/-- Embedding of Python `datetime.date`: a year/month/day triple. -/
structure PDate where
  year : Nat
  month : Nat
  day : Nat
deriving DecidableEq, Repr

/-- Python `date` ordering (lexicographic on year, month, day). -/
def PDate.leb (a b : PDate) : Bool :=
  if a.year = b.year then
    (if a.month = b.month then decide (a.day ≤ b.day) else decide (a.month ≤ b.month))
  else decide (a.year ≤ b.year)

/-- Gregorian leap year, as `calendar`/`datetime` compute it. -/
def isLeap (y : Nat) : Bool := y % 4 == 0 && (y % 100 != 0 || y % 400 == 0)

/-- Days in a month of the Gregorian calendar. -/
def daysInMonth (y m : Nat) : Nat :=
  if m = 2 then (if isLeap y then 29 else 28)
  else if m = 4 ∨ m = 6 ∨ m = 9 ∨ m = 11 then 30
  else 31

/-- The invariant `datetime.date` enforces on its fields. -/
def PDate.Valid (d : PDate) : Prop :=
  1 ≤ d.year ∧ d.year ≤ 9999 ∧ 1 ≤ d.month ∧ d.month ≤ 12 ∧
    1 ≤ d.day ∧ d.day ≤ daysInMonth d.year d.month

instance (d : PDate) : Decidable d.Valid := by
  unfold PDate.Valid; infer_instance

/-- Calendar successor of a date. -/
def nextDay (d : PDate) : PDate :=
  if d.day < daysInMonth d.year d.month then ⟨d.year, d.month, d.day + 1⟩
  else if d.month < 12 then ⟨d.year, d.month + 1, 1⟩
  else ⟨d.year + 1, 1, 1⟩

/-- Calendar predecessor of a date. -/
def prevDay (d : PDate) : PDate :=
  if 1 < d.day then ⟨d.year, d.month, d.day - 1⟩
  else if 1 < d.month then ⟨d.year, d.month - 1, daysInMonth d.year (d.month - 1)⟩
  else ⟨d.year - 1, 12, 31⟩

/-- Python `date + timedelta(days=n)` (with `n` possibly negative). -/
def addDays (d : PDate) (n : Int) : PDate :=
  if 0 ≤ n then (Nat.iterate nextDay n.toNat) d else (Nat.iterate prevDay (-n).toNat) d

/-- The ASCII digit character for `n ≤ 9`. -/
def digitChar (n : Nat) : Char := Char.ofNat (48 + n)

/-- Zero-padded decimal rendering of `n` to width `w` (most significant
digit first), the `%04d`/`%02d` fields of `date.isoformat()`. -/
def padC : Nat → Nat → List Char
  | 0, _ => []
  | w + 1, n => digitChar (n / 10 ^ w) :: padC w (n % 10 ^ w)

/-- Python `date.isoformat()`: `YYYY-MM-DD`. -/
def isoformat (d : PDate) : String :=
  ⟨padC 4 d.year ++ '-' :: (padC 2 d.month ++ '-' :: padC 2 d.day)⟩

/-- Decimal digit characters of `n`, no padding (structural recursion on a
fuel bound so that it evaluates by reduction; `fuel = n + 1` always
suffices since `n / 10 < n` for `n ≥ 10`). -/
def natCharsAux : Nat → Nat → List Char
  | 0, _ => []
  | fuel + 1, n =>
    if n < 10 then [digitChar n]
    else natCharsAux fuel (n / 10) ++ [digitChar (n % 10)]

/-- Decimal digit characters of `n`, no padding. -/
def natChars (n : Nat) : List Char := natCharsAux (n + 1) n

/-- Decimal rendering of a natural number (Python `f"{n}"`). -/
def natStr (n : Nat) : String := ⟨natChars n⟩

/-! ## The two regular expressions of `calender.py`, hand-compiled.

`ABS_DATE_RE = \b(?:\d{1,2}[∕-]\d{1,2}[∕-]\d{2,4}|\w+\s+\d{1,2},\s*\d{4})\b`
`WEEK_RE = \b(?:week(?:s)?\s*(\d{1,2})(?:\s*-\s*(\d{1,2}))?|(\d{1,2})(st|nd|rd|th)\s+week)\b`
both with `re.I`.  Greedy quantifiers backtrack; alternative lists below
are ordered exactly as the engine tries them, and `List.findSome?` picks
the first alternative whose continuation (including the trailing `\b`)
succeeds. -/

/-- Exactly `k` digits: `\d{k}`. -/
def takeKDigits : Nat → List Char → Option (List Char × List Char)
  | 0, cs => some ([], cs)
  | k + 1, c :: cs =>
    if isDigitC c then (takeKDigits k cs).map (fun p => (c :: p.1, p.2)) else none
  | _ + 1, [] => none

/-- Greedy `\d{1,2}`: the backtracking alternatives in engine order
(two digits first, then one). -/
def matchD12 (cs : List Char) : List (List Char × List Char) :=
  [2, 1].filterMap (fun k => takeKDigits k cs)

/-- Greedy `\d{2,4}`: alternatives in engine order (4, then 3, then 2). -/
def matchD24 (cs : List Char) : List (List Char × List Char) :=
  [4, 3, 2].filterMap (fun k => takeKDigits k cs)

/-- Maximal run of `\s*`.  Wherever the pattern uses it, the following
pattern element can never match a whitespace character, so the maximal
run is the only alternative the engine can succeed with. -/
def skipSpaces : List Char → List Char
  | [] => []
  | c :: rest => if isSpaceC c then skipSpaces rest else c :: rest

/-- `\w+` (maximal; the following `\s+` can never match a word char, so
only the maximal run can succeed). -/
def takeWord1 : List Char → Option (List Char)
  | [] => none
  | c :: rest => if isWordC c then some ((c :: rest).dropWhile isWordC) else none

/-- `\s+` (maximal; the following element is never a whitespace char). -/
def takeSpaces1 : List Char → Option (List Char)
  | [] => none
  | c :: rest => if isSpaceC c then some ((c :: rest).dropWhile isSpaceC) else none

/-- Case-insensitive literal (pattern given in lowercase). -/
def matchLitCI : List Char → List Char → Option (List Char)
  | [], cs => some cs
  | _ :: _, [] => none
  | p :: ps, c :: cs => if lowerC c = p then matchLitCI ps cs else none

/-- Start-of-match `\b`.  All patterns start with a word-class character,
so the boundary holds exactly when the preceding character is absent or
not a word character (if the current character is not word-class the
pattern body fails by itself, so this shortcut never changes the result). -/
def startBoundary : Option Char → Bool
  | none => true
  | some c => !isWordC c

/-- End-of-match `\b`.  All patterns end with a word-class character, so
the boundary holds exactly when the following character is absent or not
a word character. -/
def endBoundary : List Char → Bool
  | [] => true
  | c :: _ => !isWordC c

/-- A match of `WEEK_RE`: the matched slice and the three capture groups
(`m.group(1)`, `m.group(2)`, `m.group(3)`; the ordinal-suffix group 4 is
never read by the program). -/
structure WeekMatch where
  matched : String
  g1 : Option String
  g2 : Option String
  g3 : Option String
deriving DecidableEq, Repr

/-- Branch `week(?:s)?\s*(\d{1,2})(?:\s*-\s*(\d{1,2}))?` followed by the
trailing `\b`, with full backtracking in engine order. -/
def weekAlt1 (cs : List Char) :
    Option ((Option String × Option String × Option String) × List Char) :=
  match matchLitCI ['w', 'e', 'e', 'k'] cs with
  | none => none
  | some cs1 =>
    let sAlts : List (List Char) :=
      match cs1 with
      | c :: rest => if lowerC c = 's' then [rest, cs1] else [cs1]
      | [] => [cs1]
    sAlts.findSome? (fun cs2 =>
      let cs3 := skipSpaces cs2
      (matchD12 cs3).findSome? (fun p1 =>
        let rangeAlts : List (Option (List Char) × List Char) :=
          (match skipSpaces p1.2 with
           | '-' :: cs6 => (matchD12 (skipSpaces cs6)).map (fun p2 => (some p2.1, p2.2))
           | _ => []) ++ [(none, p1.2)]
        rangeAlts.findSome? (fun alt =>
          if endBoundary alt.2 then
            some ((some ⟨p1.1⟩, alt.1.map (fun l => (⟨l⟩ : String)), none), alt.2)
          else none)))

/-- Branch `(\d{1,2})(st|nd|rd|th)\s+week` followed by the trailing `\b`. -/
def weekAlt2 (cs : List Char) :
    Option ((Option String × Option String × Option String) × List Char) :=
  (matchD12 cs).findSome? (fun p3 =>
    (["st", "nd", "rd", "th"].findSome? (fun suf => matchLitCI suf.data p3.2)).bind
      (fun cs2 =>
        (takeSpaces1 cs2).bind (fun cs4 =>
          (matchLitCI ['w', 'e', 'e', 'k'] cs4).bind (fun cs5 =>
            if endBoundary cs5 then some ((none, none, some ⟨p3.1⟩), cs5) else none))))

/-- Attempt a `WEEK_RE` match at the current position (`prev` is the
character just before it). -/
def tryWeekAt (prev : Option Char) (cs : List Char) : Option (WeekMatch × List Char) :=
  if !startBoundary prev then none
  else
    match (weekAlt1 cs).orElse (fun _ => weekAlt2 cs) with
    | some (gs, rest) =>
      some (⟨⟨cs.take (cs.length - rest.length)⟩, gs.1, gs.2.1, gs.2.2⟩, rest)
    | none => none

/-- Branch `\d{1,2}[∕-]\d{1,2}[∕-]\d{2,4}` of `ABS_DATE_RE` plus the
trailing `\b`; returns the remaining text after the match. -/
def absAltA (cs : List Char) : Option (List Char) :=
  (matchD12 cs).findSome? (fun p1 =>
    match p1.2 with
    | c :: cs2 =>
      if c = '/' || c = '-' then
        (matchD12 cs2).findSome? (fun p2 =>
          match p2.2 with
          | c2 :: cs4 =>
            if c2 = '/' || c2 = '-' then
              (matchD24 cs4).findSome? (fun p3 =>
                if endBoundary p3.2 then some p3.2 else none)
            else none
          | [] => none)
      else none
    | [] => none)

/-- Branch `\w+\s+\d{1,2},\s*\d{4}` of `ABS_DATE_RE` plus the trailing `\b`. -/
def absAltB (cs : List Char) : Option (List Char) :=
  (takeWord1 cs).bind (fun cs1 =>
    (takeSpaces1 cs1).bind (fun cs2 =>
      (matchD12 cs2).findSome? (fun p =>
        match p.2 with
        | ',' :: cs4 =>
          (takeKDigits 4 (skipSpaces cs4)).bind (fun p4 =>
            if endBoundary p4.2 then some p4.2 else none)
        | _ => none)))

/-- Attempt an `ABS_DATE_RE` match at the current position; returns the
matched slice (what `findall` collects, since the pattern has no capture
groups) and the remaining text. -/
def tryAbsAt (prev : Option Char) (cs : List Char) : Option (String × List Char) :=
  if !startBoundary prev then none
  else
    match (absAltA cs).orElse (fun _ => absAltB cs) with
    | some rest => some (⟨cs.take (cs.length - rest.length)⟩, rest)
    | none => none

/-- Python's left-to-right, non-overlapping `finditer` scan: try a match
at every position, resume after the end of each match.  Both patterns
only ever match at least one character, so `fuel = length of the text`
bounds the number of steps; the fuel is never exhausted. -/
def scanAux {α : Type} (tryAt : Option Char → List Char → Option (α × List Char)) :
    Nat → Option Char → List Char → List α
  | 0, _, _ => []
  | _ + 1, _, [] => []
  | fuel + 1, prev, c :: rest =>
    match tryAt prev (c :: rest) with
    | some (m, restAfter) =>
      m :: scanAux tryAt fuel (((c :: rest).take ((c :: rest).length - restAfter.length)).getLast?)
            restAfter
    | none => scanAux tryAt fuel (some c) rest

/-- `WEEK_RE.finditer(text)`. -/
def weekFinditer (text : String) : List WeekMatch :=
  scanAux tryWeekAt text.data.length none text.data

/-- `ABS_DATE_RE.findall(text)`. -/
def absMatches (text : String) : List String :=
  scanAux tryAbsAt text.data.length none text.data

/-- Month-name table (full names and the three-letter abbreviations that
the word-form date family can produce). -/
def monthNames : List (String × Nat) :=
  [("january", 1), ("february", 2), ("march", 3), ("april", 4), ("may", 5),
   ("june", 6), ("july", 7), ("august", 8), ("september", 9), ("october", 10),
   ("november", 11), ("december", 12),
   ("jan", 1), ("feb", 2), ("mar", 3), ("apr", 4), ("jun", 6), ("jul", 7),
   ("aug", 8), ("sep", 9), ("oct", 10), ("nov", 11), ("dec", 12)]

/-- Split a character list at separator characters (groups may be empty). -/
def splitSep (sep : Char → Bool) : List Char → List (List Char)
  | [] => [[]]
  | c :: rest =>
    let r := splitSep sep rest
    if sep c then [] :: r
    else
      match r with
      | g :: gs => (c :: g) :: gs
      | [] => [[c]]

/-- Modelled from the spec: the external date-parsing collaborator
`dateutil.parser.parse(ds, fuzzy=True).date()` is a third-party library
and not part of this repository.  Following the spec's words, a numeric
`D[∕-]M[∕-]Y` match is interpreted with the parser's default
month/day/year preference (first field is the month when it can be,
otherwise day and month swap), two-digit years are widened to the
century the parser's standard heuristics pick, and a `Month D, Y` match
resolves its word-form month name; anything else, and any field
combination that does not form a real calendar date, is "unparseable"
and reported as `none` (the code discards such matches silently). -/
def parseDate (ds : String) : Option PDate :=
  let cs := ds.data
  let numGroups := splitSep (fun c => c = '/' || c = '-') cs
  if numGroups.length = 3 ∧ numGroups.all (fun g => g ≠ [] ∧ g.all isDigitC) then
    match numGroups with
    | [ga, gb, gc] =>
      let a := pyInt ⟨ga⟩
      let b := pyInt ⟨gb⟩
      let craw := pyInt ⟨gc⟩
      let y := if gc.length ≤ 2 then (if craw < 50 then 2000 + craw else 1900 + craw) else craw
      let md := if a ≤ 12 then (a, b) else (b, a)
      if 1 ≤ md.1 ∧ md.1 ≤ 12 ∧ 1 ≤ md.2 ∧ md.2 ≤ daysInMonth y md.1 ∧
          1 ≤ y ∧ y ≤ 9999 then
        some ⟨y, md.1, md.2⟩
      else none
    | _ => none
  else
    let toks := (splitSep (fun c => isSpaceC c || c = ',') cs).filter (fun g => g ≠ [])
    match toks with
    | [w, d, yt] =>
      if d.all isDigitC ∧ yt.all isDigitC ∧ d ≠ [] ∧ yt.length = 4 then
        match monthNames.find? (fun p => p.1 = (⟨w.map lowerC⟩ : String)) with
        | some p =>
          let y := pyInt ⟨yt⟩
          let dd := pyInt ⟨d⟩
          if 1 ≤ dd ∧ dd ≤ daysInMonth y p.2 ∧ 1 ≤ y ∧ y ≤ 9999 then
            some ⟨y, p.2, dd⟩
          else none
        | none => none
      else none
    | _ => none

/-! ## The pipeline functions of `calender.py`. -/

/-- `KEYWORDS` (calender.py lines 24-32). -/
def KEYWORDS : List String :=
  ["assignment", "quiz", "midterm", "exam", "presentation", "project", "lab"]

/-- The dedup loop of `parse_absolute_dates` (lines 54-65): `seen` is the
set of already-emitted dates, parse failures are skipped (the
`try/except` around `dtparse.parse`), and each surviving match appends
`(date, original match string)`. -/
def absGo (parse : String → Option PDate) :
    List String → List PDate → List (PDate × String)
  | [], _ => []
  | ds :: rest, seen =>
    match parse ds with
    | none => absGo parse rest seen
    | some d =>
      if d ∈ seen then absGo parse rest seen
      else (d, ds) :: absGo parse rest (d :: seen)

/-- `parse_absolute_dates(text)` (calender.py lines 54-65). -/
def parse_absolute_dates (text : String) : List (PDate × String) :=
  absGo parseDate (absMatches text) []

/-- The parsed match stream before deduplication: each regex match paired
with its parsed date, parse failures dropped (the reference stream the
dedup loop filters). -/
def absParsed (text : String) : List (PDate × String) :=
  (absMatches text).filterMap (fun s => (parseDate s).map (fun d => (d, s)))

/-- The loop body of `parse_relative_weeks` (lines 70-83) for one match:
`Week N` / `Week N-M` expands `range(start_week, end_week+1)` with label
`f"week {wk}"`; `Nth week` yields one event with label `f"{wk_num} week"`. -/
def weekEvents (semester_start : PDate) (m : WeekMatch) : List (PDate × String) :=
  match m.g1 with
  | some s1 =>
    let sw := pyInt s1
    let ew := match m.g2 with | some s2 => pyInt s2 | none => sw
    (List.range' sw (ew + 1 - sw)).map
      (fun (wk : Nat) =>
        (addDays semester_start (7 * ((wk : Int) - 1)), "week " ++ natStr wk))
  | none =>
    match m.g3 with
    | some s3 =>
      let wk := pyInt s3
      [(addDays semester_start (7 * ((wk : Int) - 1)), natStr wk ++ " week")]
    | none => []

/-- `parse_relative_weeks(text, semester_start)` (calender.py lines 68-83):
the `for m in WEEK_RE.finditer(text)` loop appending events per match. -/
def parse_relative_weeks (text : String) (semester_start : PDate) :
    List (PDate × String) :=
  (weekFinditer text).foldl (fun events m => events ++ weekEvents semester_start m) []

/-- `window_context(text, keyword, win)` (calender.py lines 86-92).  The
Python default is `win = 80`; every caller in the program uses it. -/
def window_context (text keyword : String) (win : Nat) : String :=
  match pyFind (pyLower text) (pyLower keyword) with
  | none => "Event"
  | some idx => pySliceReplace text (idx - win) (idx + keyword.length + win)

/-- `extract_title(context)` (calender.py lines 95-100); `ctx`, the
lowered context the keywords are searched in, is inlined. -/
def extract_title (context : String) : String :=
  match KEYWORDS.find? (fun kw => strContains (pyLower context) kw) with
  | some kw => pyCapitalize kw
  | none =>
    if 40 < context.length then (pyStrip context).take 40 ++ "…" else pyStrip context

/-- `filter_by_semester(events, sem_start, sem_end)` (lines 103-104). -/
def filter_by_semester (events : List (PDate × String)) (sem_start sem_end : PDate) :
    List (PDate × String) :=
  events.filter (fun p => PDate.leb sem_start p.1 && PDate.leb p.1 sem_end)

/-- `build_calendar_df(events, text)` (calender.py lines 107-113): rows
`(Date := d.isoformat(), Event Description := title)` in event order,
then `sort_values("Date")` sorts by the ISO date string. -/
def build_calendar_df (events : List (PDate × String)) (text : String) :
    List (String × String) :=
  sortBy dateStrLe
    (events.map (fun p => (isoformat p.1, extract_title (window_context text p.2 80))))

/-- The core of `process` (calender.py lines 174-183), from the already
extracted text (PDF-to-text is the external `extract_text` collaborator):
both extractors, the semester filter over their concatenation, and the
table builder.  The `ics`/`pdf` export byte payloads are produced by
external libraries and not modelled. -/
def process (text : String) (sem_start sem_end : PDate) : List (String × String) :=
  let abs_events := parse_absolute_dates text
  let rel_events := parse_relative_weeks text sem_start
  let all_events := filter_by_semester (abs_events ++ rel_events) sem_start sem_end
  build_calendar_df all_events text


/-! ## Helper lemmas shared by the claim theorems. -/

/-- A fold that appends the per-element lists equals the flat concatenation. -/
theorem foldl_append_eq_flatMapL {α β : Type} (f : α → List β) :
    ∀ (l : List α) (init : List β),
      l.foldl (fun acc a => acc ++ f a) init = init ++ flatMapL l f
  | [], init => by simp [flatMapL]
  | a :: as, init => by
    simp only [List.foldl_cons, flatMapL]
    rw [foldl_append_eq_flatMapL f as (init ++ f a)]
    simp [List.append_assoc]

/-- The week extractor is the per-match expansion, concatenated in match
order (the shape of the `for m in WEEK_RE.finditer(text)` loop). -/
theorem parse_relative_weeks_eq_flatMap (text : String) (start : PDate) :
    parse_relative_weeks text start = flatMapL (weekFinditer text) (weekEvents start) := by
  unfold parse_relative_weeks
  rw [foldl_append_eq_flatMapL]
  simp

/-- A branch-1 match with no range group expands to a single event labelled
`"week N"`, dated `semester_start + (N-1)` weeks. -/
theorem weekEvents_single (start : PDate) (m : WeekMatch) (s : String)
    (h1 : m.g1 = some s) (h2 : m.g2 = none) :
    weekEvents start m =
      [(addDays start (7 * ((pyInt s : Int) - 1)), "week " ++ natStr (pyInt s))] := by
  unfold weekEvents
  rw [h1, h2]
  simp only
  have hone : pyInt s + 1 - pyInt s = 1 := by omega
  rw [hone]
  rfl

/-- An ordinal (branch-2) match expands to a single event labelled
`"N week"`, dated `semester_start + (N-1)` weeks. -/
theorem weekEvents_ordinal (start : PDate) (m : WeekMatch) (s : String)
    (h1 : m.g1 = none) (h3 : m.g3 = some s) :
    weekEvents start m =
      [(addDays start (7 * ((pyInt s : Int) - 1)), natStr (pyInt s) ++ " week")] := by
  unfold weekEvents
  rw [h1, h3]

/-- A reversed range match (`N > M`) expands to no events at all: the
iteration `range(start_week, end_week + 1)` is empty. -/
theorem weekEvents_reversed (start : PDate) (m : WeekMatch) (s1 s2 : String)
    (h1 : m.g1 = some s1) (h2 : m.g2 = some s2) (hrev : pyInt s2 < pyInt s1) :
    weekEvents start m = [] := by
  unfold weekEvents
  rw [h1, h2]
  simp only
  have hz : pyInt s2 + 1 - pyInt s1 = 0 := by omega
  rw [hz]
  rfl

/-! ## Claim C5. -/

/-- C5: for every input event list and semester window, the Semester Range
Filter's output is a subsequence of its input preserving relative order,
and every emitted event's date `d` satisfies `start <= d <= end`,
inclusive at both bounds. -/
theorem filter_by_semester_sublist_bounds (events : List (PDate × String))
    (sem_start sem_end : PDate) :
    List.Sublist (filter_by_semester events sem_start sem_end) events ∧
      ∀ p ∈ filter_by_semester events sem_start sem_end,
        PDate.leb sem_start p.1 = true ∧ PDate.leb p.1 sem_end = true := by
  constructor
  · exact List.filter_sublist events
  · intro p hp
    rw [filter_by_semester, List.mem_filter] at hp
    have h := hp.2
    simp only [Bool.and_eq_true] at h
    exact h

/-- Witness for C5 at a concrete event list and window. -/
theorem filter_by_semester_sublist_bounds_witness :
    List.Sublist
      (filter_by_semester [(⟨2024, 9, 15⟩, "a"), (⟨2025, 1, 1⟩, "b")] ⟨2024, 9, 1⟩ ⟨2024, 12, 15⟩)
      [(⟨2024, 9, 15⟩, "a"), (⟨2025, 1, 1⟩, "b")] ∧
    PDate.leb ⟨2024, 9, 1⟩ (⟨2024, 9, 15⟩ : PDate) = true ∧
      PDate.leb (⟨2024, 9, 15⟩ : PDate) ⟨2024, 12, 15⟩ = true :=
  ⟨(filter_by_semester_sublist_bounds [(⟨2024, 9, 15⟩, "a"), (⟨2025, 1, 1⟩, "b")]
      ⟨2024, 9, 1⟩ ⟨2024, 12, 15⟩).1,
   (filter_by_semester_sublist_bounds [(⟨2024, 9, 15⟩, "a"), (⟨2025, 1, 1⟩, "b")]
      ⟨2024, 9, 1⟩ ⟨2024, 12, 15⟩).2 (⟨2024, 9, 15⟩, "a") (by decide)⟩

/-! ## Claim C7. -/

/-- C7: for every week-range reference `week(s) N-M` with `N > M` matched
in the text, the Relative Week Extractor emits zero events for that match
(the forward-only iteration over `[N, M]` is empty), and the extractor is
a total function of the match list (no error is raised). -/
theorem parse_relative_weeks_reversed_range (text : String) (start : PDate)
    (m : WeekMatch) (s1 s2 : String) (_hm : m ∈ weekFinditer text)
    (h1 : m.g1 = some s1) (h2 : m.g2 = some s2) (hrev : pyInt s2 < pyInt s1) :
    weekEvents start m = [] ∧
      parse_relative_weeks text start = flatMapL (weekFinditer text) (weekEvents start) :=
  ⟨weekEvents_reversed start m s1 s2 h1 h2 hrev,
   parse_relative_weeks_eq_flatMap text start⟩

/-- Witness for C7: the reversed range `week 9-5` really matches and
contributes no event. -/
theorem parse_relative_weeks_reversed_range_witness :
    weekEvents ⟨2024, 9, 1⟩ ⟨"week 9-5", some "9", some "5", none⟩ = [] ∧
      parse_relative_weeks "week 9-5" ⟨2024, 9, 1⟩ =
        flatMapL (weekFinditer "week 9-5") (weekEvents ⟨2024, 9, 1⟩) :=
  parse_relative_weeks_reversed_range "week 9-5" ⟨2024, 9, 1⟩
    ⟨"week 9-5", some "9", some "5", none⟩ "9" "5" (by decide) rfl rfl (by decide)

/-! ## Claim C3. -/

/-- C3 counterexample: the single-week ordinal reference `"2nd week"`
emits one event at the right offset, but its label is `"2 week"`, not
`"week 2"` as the claim states for ordinal surface forms. -/
theorem parse_relative_weeks_ordinal_label_cex :
    parse_relative_weeks "2nd week" ⟨2024, 9, 1⟩ = [(⟨2024, 9, 8⟩, "2 week")] ∧
      ("2 week" : String) ≠ "week 2" := ⟨by decide, by decide⟩

/-- C3 as amended: every single-week reference matched in the text emits
exactly one event dated `semester_start + (N-1)` weeks; the label is
`"week N"` for the `week(s) N` surface form and `"N week"` for the
ordinal `Nth week` form. -/
theorem parse_relative_weeks_single_week (text : String) (start : PDate)
    (m : WeekMatch) (s : String) (_hm : m ∈ weekFinditer text) :
    (m.g1 = some s → m.g2 = none →
      weekEvents start m =
        [(addDays start (7 * ((pyInt s : Int) - 1)), "week " ++ natStr (pyInt s))]) ∧
    (m.g1 = none → m.g3 = some s →
      weekEvents start m =
        [(addDays start (7 * ((pyInt s : Int) - 1)), natStr (pyInt s) ++ " week")]) ∧
    parse_relative_weeks text start = flatMapL (weekFinditer text) (weekEvents start) :=
  ⟨fun h1 h2 => weekEvents_single start m s h1 h2,
   fun h1 h3 => weekEvents_ordinal start m s h1 h3,
   parse_relative_weeks_eq_flatMap text start⟩

/-- Witness for C3 (amended) on the concrete text `"week 3"`. -/
theorem parse_relative_weeks_single_week_witness :
    weekEvents ⟨2024, 9, 1⟩ ⟨"week 3", some "3", none, none⟩ =
      [(addDays ⟨2024, 9, 1⟩ (7 * ((pyInt "3" : Int) - 1)), "week " ++ natStr (pyInt "3"))] :=
  (parse_relative_weeks_single_week "week 3" ⟨2024, 9, 1⟩
      ⟨"week 3", some "3", none, none⟩ "3" (by decide)).1 rfl rfl

/-! ## Claim C9. -/

/-- C9: on a text containing `"Midterm on 10/15/2024"` and `"Week 3"`,
with semester start 2024-09-01 and window [2024-09-01, 2024-12-15], the
pipeline produces an EventTable with exactly two rows: one dated
2024-09-15 (the week-3 offset) and one dated 2024-10-15 titled
`"Midterm"` (the title of the week-3 row, which the claim leaves open,
is also `"Midterm"` because the 80-character context window around
`"week 3"` reaches back to the word `"Midterm"`). -/
theorem process_midterm_week3_end_to_end :
    process "Midterm on 10/15/2024. Week 3" ⟨2024, 9, 1⟩ ⟨2024, 12, 15⟩ =
      [("2024-09-15", "Midterm"), ("2024-10-15", "Midterm")] := by decide

/-! ## The `str.find` scan: first-occurrence specification. -/

/-- Full characterization of the `str.find` scan `findSubAux`: a `none`
result means no occurrence at any offset, and a `some r` result is an
occurrence at offset `r - i`, within the haystack, and minimal. -/
theorem findSubAux_spec (n : List Char) :
    ∀ (hay : List Char) (i : Nat),
      (findSubAux n hay i = none → ∀ j, n.isPrefixOf (hay.drop j) = false) ∧
      (∀ r, findSubAux n hay i = some r →
        i ≤ r ∧ r - i ≤ hay.length ∧ n.isPrefixOf (hay.drop (r - i)) = true ∧
          ∀ j, j < r - i → n.isPrefixOf (hay.drop j) = false) := by
  intro hay
  induction hay with
  | nil =>
    intro i
    by_cases h : n.isPrefixOf []
    · constructor
      · intro hn
        rw [findSubAux, if_pos h] at hn
        exact Option.noConfusion hn
      · intro r hr
        rw [findSubAux, if_pos h] at hr
        cases hr
        refine ⟨Nat.le_refl i, by simp, ?_, fun j hj => by omega⟩
        simp only [Nat.sub_self, List.drop_nil]
        exact h
    · constructor
      · intro _ j
        rw [List.drop_nil]
        exact Bool.eq_false_iff.2 h
      · intro r hr
        rw [findSubAux, if_neg h] at hr
        exact Option.noConfusion hr
  | cons c t ih =>
    intro i
    by_cases h : n.isPrefixOf (c :: t)
    · constructor
      · intro hn
        rw [findSubAux, if_pos h] at hn
        exact Option.noConfusion hn
      · intro r hr
        rw [findSubAux, if_pos h] at hr
        cases hr
        refine ⟨Nat.le_refl i, by simp, ?_, fun j hj => by omega⟩
        simp only [Nat.sub_self, List.drop_zero]
        exact h
    · have heq : findSubAux n (c :: t) i = findSubAux n t (i + 1) := by
        rw [findSubAux, if_neg h]
      constructor
      · intro hn j
        rw [heq] at hn
        cases j with
        | zero =>
          simp only [List.drop_zero]
          exact Bool.eq_false_iff.2 h
        | succ j =>
          rw [List.drop_succ_cons]
          exact (ih (i + 1)).1 hn j
      · intro r hr
        rw [heq] at hr
        obtain ⟨hle, hlen, hpre, hmin⟩ := (ih (i + 1)).2 r hr
        have hsplit : r - i = (r - (i + 1)) + 1 := by omega
        refine ⟨by omega, by simp only [List.length_cons]; omega, ?_, ?_⟩
        · rw [hsplit, List.drop_succ_cons]
          exact hpre
        · intro j hj
          cases j with
          | zero =>
            simp only [List.drop_zero]
            exact Bool.eq_false_iff.2 h
          | succ j =>
            rw [List.drop_succ_cons]
            exact hmin j (by omega)

/-- When the label does not occur case-insensitively anywhere in the text,
`window_context` returns the fallback `"Event"`. -/
theorem window_context_of_not_occurs (text kw : String) (win : Nat)
    (h : occursCI text kw = false) : window_context text kw win = "Event" := by
  unfold window_context
  cases hf : pyFind (pyLower text) (pyLower kw) with
  | none => rfl
  | some r =>
    exfalso
    unfold pyFind at hf
    obtain ⟨-, hlen, hpre, -⟩ :=
      (findSubAux_spec (pyLower kw).data (pyLower text).data 0).2 r hf
    rw [Nat.sub_zero] at hlen hpre
    have h2 : (pyLower text).data.length = text.length := by
      show (text.data.map lowerC).length = text.data.length
      simp
    have hr : r ≤ text.length := by
      rw [h2] at hlen
      exact hlen
    have hocc : occursAt text kw r = true := hpre
    have hany : (List.range (text.length + 1)).any (fun i => occursAt text kw i) = true := by
      rw [List.any_eq_true]
      exact ⟨r, List.mem_range.2 (by omega), hocc⟩
    rw [occursCI, hany] at h
    exact Bool.noConfusion h

/-- When `i` is the first case-insensitive occurrence of the label,
`window_context` extracts the window `[i - win, i + len(label) + win]`
around it (clamped, newlines collapsed). -/
theorem window_context_first_index (text kw : String) (win : Nat) (i : Nat)
    (hocc : occursAt text kw i = true)
    (hmin : ∀ j, j < i → occursAt text kw j = false) :
    window_context text kw win = pySliceReplace text (i - win) (i + kw.length + win) := by
  unfold window_context
  cases hf : pyFind (pyLower text) (pyLower kw) with
  | none =>
    exfalso
    unfold pyFind at hf
    have hall := (findSubAux_spec (pyLower kw).data (pyLower text).data 0).1 hf i
    rw [occursAt, hall] at hocc
    exact Bool.noConfusion hocc
  | some r =>
    unfold pyFind at hf
    obtain ⟨-, -, hpre, hminr⟩ :=
      (findSubAux_spec (pyLower kw).data (pyLower text).data 0).2 r hf
    rw [Nat.sub_zero] at hpre hminr
    have hri : r = i := by
      rcases Nat.lt_trichotomy r i with hlt | hgt | hgt
      · have hc := hmin r hlt
        rw [occursAt, hpre] at hc
        exact Bool.noConfusion hc
      · exact hgt
      · have hc := hminr i hgt
        rw [occursAt, hc] at hocc
        exact Bool.noConfusion hocc
    subst hri
    rfl

/-! ## Claim C2. -/

/-- C2 counterexample: the label `"due"` does not occur case-sensitively
in the text `"DUE"`, yet `window_context` does not return the fallback
`"Event"` — it finds the occurrence case-insensitively and returns the
window `"DUE"`.  The search in the code is case-insensitive, not
case-sensitive as the claim states. -/
theorem window_context_case_insensitive_cex :
    occursSubCS "due" "DUE" = false ∧ window_context "DUE" "due" 80 = "DUE" ∧
      window_context "DUE" "due" 80 ≠ "Event" := ⟨by decide, by decide, by decide⟩

/-- C2 as amended: the Title Inferencer locates the first occurrence of
the label by case-INsensitive substring search (both text and label are
lower-cased before searching); when the label is absent from the text
even case-insensitively it returns exactly the fallback `"Event"`.  The
function is total, so no error is ever raised. -/
theorem window_context_first_ci_occurrence (text kw : String) (win : Nat) :
    (occursCI text kw = false → window_context text kw win = "Event") ∧
      ∀ i, occursAt text kw i = true → (∀ j, j < i → occursAt text kw j = false) →
        window_context text kw win = pySliceReplace text (i - win) (i + kw.length + win) :=
  ⟨window_context_of_not_occurs text kw win,
   fun i hocc hmin => window_context_first_index text kw win i hocc hmin⟩

/-- Witness for C2 (amended): in `"abc due"` the first case-insensitive
occurrence of `"due"` is at index 4, and the returned window is the
slice around it. -/
theorem window_context_first_ci_occurrence_witness :
    window_context "abc due" "due" 2 =
      pySliceReplace "abc due" (4 - 2) (4 + "due".length + 2) :=
  (window_context_first_ci_occurrence "abc due" "due" 2).2 4 (by decide) (by decide)

/-! ## Claim C10. -/

/-- C10 counterexample: in `"5 week plan. 5th week"` the only `WEEK_RE`
match is the ordinal `"5th week"`, whose normalized label is `"5 week"`
— but that label DOES occur as a substring of the original text (in
`"5 week plan"`), so the title inference lookup succeeds and the
resulting title is the context window, not the fallback `"Event"`. -/
theorem ordinal_label_occurs_cex :
    weekFinditer "5 week plan. 5th week" = [⟨"5th week", none, none, some "5"⟩] ∧
      occursSubCS "5 week" "5 week plan. 5th week" = true ∧
      parse_relative_weeks "5 week plan. 5th week" ⟨2024, 9, 1⟩ =
        [(⟨2024, 9, 29⟩, "5 week")] ∧
      extract_title (window_context "5 week plan. 5th week" "5 week" 80) =
        "5 week plan. 5th week" ∧
      extract_title (window_context "5 week plan. 5th week" "5 week" 80) ≠ "Event" :=
  ⟨by decide, by decide, by decide, by decide, by decide⟩

/-- C10 as amended: an ordinal match `Nth week` is normalized to the
label `"N week"` (which differs from its own matched surface form), and
whenever a label does not occur case-insensitively anywhere in the text
the title inference lookup fails and the resulting title is the fallback
`"Event"`; but the normalized label may occur elsewhere in the text, in
which case a window-derived title is produced instead. -/
theorem ordinal_label_and_fallback_title (text : String) (start : PDate)
    (m : WeekMatch) (s lbl : String) (_hm : m ∈ weekFinditer text)
    (h1 : m.g1 = none) (h3 : m.g3 = some s) :
    weekEvents start m =
        [(addDays start (7 * ((pyInt s : Int) - 1)), natStr (pyInt s) ++ " week")] ∧
      (occursCI text lbl = false →
        extract_title (window_context text lbl 80) = "Event") :=
  ⟨weekEvents_ordinal start m s h1 h3,
   fun h => by rw [window_context_of_not_occurs text lbl 80 h]; decide⟩

/-- Witness for C10 (amended) on the text `"7th week"` and an absent
label `"zzz"`. -/
theorem ordinal_label_and_fallback_title_witness :
    weekEvents ⟨2024, 9, 1⟩ ⟨"7th week", none, none, some "7"⟩ =
        [(addDays ⟨2024, 9, 1⟩ (7 * ((pyInt "7" : Int) - 1)), natStr (pyInt "7") ++ " week")] ∧
      extract_title (window_context "7th week" "zzz" 80) = "Event" :=
  ⟨(ordinal_label_and_fallback_title "7th week" ⟨2024, 9, 1⟩
      ⟨"7th week", none, none, some "7"⟩ "7" "zzz" (by decide) rfl rfl).1,
   (ordinal_label_and_fallback_title "7th week" ⟨2024, 9, 1⟩
      ⟨"7th week", none, none, some "7"⟩ "7" "zzz" (by decide) rfl rfl).2 (by decide)⟩

/-! ## Claim C6: the dedup loop of the Date Literal Extractor. -/

/-- The dedup loop emits pairwise-distinct dates, none of which were
already in `seen`.  This holds for EVERY parse oracle, so it does not
depend on the spec-modelled `parseDate`. -/
theorem absGo_nodup (p : String → Option PDate) :
    ∀ (ms : List String) (seen : List PDate),
      ((absGo p ms seen).map Prod.fst).Nodup ∧
        ∀ d ∈ (absGo p ms seen).map Prod.fst, d ∉ seen := by
  intro ms
  induction ms with
  | nil => intro seen; simp [absGo]
  | cons s rest ih =>
    intro seen
    cases hp : p s with
    | none =>
      simp only [absGo, hp]
      exact ih seen
    | some d =>
      by_cases hd : d ∈ seen
      · simp only [absGo, hp, if_pos hd]
        exact ih seen
      · simp only [absGo, hp, if_neg hd, List.map_cons]
        obtain ⟨ihnd, ihmem⟩ := ih (d :: seen)
        constructor
        · rw [List.nodup_cons]
          exact ⟨fun hcon => (ihmem d hcon) (List.mem_cons_self d seen), ihnd⟩
        · intro x hx
          rcases List.mem_cons.1 hx with rfl | hx
          · exact hd
          · exact fun hxs => (ihmem x hx) (List.mem_cons_of_mem d hxs)

/-- The dedup loop's output is a subsequence of the parsed match stream,
so it preserves first-seen order. -/
theorem absGo_sublist (p : String → Option PDate) :
    ∀ (ms : List String) (seen : List PDate),
      List.Sublist (absGo p ms seen)
        (ms.filterMap (fun s => (p s).map (fun d => (d, s)))) := by
  intro ms
  induction ms with
  | nil => intro seen; simp [absGo]
  | cons s rest ih =>
    intro seen
    cases hp : p s with
    | none =>
      simp only [absGo, hp, List.filterMap_cons, Option.map_none']
      exact ih seen
    | some d =>
      simp only [absGo, hp, List.filterMap_cons, Option.map_some']
      by_cases hd : d ∈ seen
      · rw [if_pos hd]
        exact List.Sublist.cons _ (ih seen)
      · rw [if_neg hd]
        exact List.Sublist.cons₂ _ (ih (d :: seen))

/-- Every date in the parsed match stream that is not already in `seen`
makes it into the dedup loop's output. -/
theorem absGo_covers (p : String → Option PDate) :
    ∀ (ms : List String) (seen : List PDate),
      ∀ q ∈ ms.filterMap (fun s => (p s).map (fun d => (d, s))),
        q.1 ∉ seen → q.1 ∈ (absGo p ms seen).map Prod.fst := by
  intro ms
  induction ms with
  | nil => intro seen q hq; simp at hq
  | cons s rest ih =>
    intro seen q hq hqs
    cases hp : p s with
    | none =>
      simp only [List.filterMap_cons, hp, Option.map_none'] at hq
      simp only [absGo, hp]
      exact ih seen q hq hqs
    | some d =>
      simp only [List.filterMap_cons, hp, Option.map_some'] at hq
      rcases List.mem_cons.1 hq with rfl | hq
      · simp only [absGo, hp]
        rw [if_neg hqs]
        exact List.mem_cons_self _ _
      · by_cases hd : d ∈ seen
        · simp only [absGo, hp]
          rw [if_pos hd]
          exact ih seen q hq hqs
        · simp only [absGo, hp]
          rw [if_neg hd]
          by_cases hqd : q.1 = d
          · rw [List.map_cons, hqd]
            exact List.mem_cons_self _ _
          · rw [List.map_cons]
            exact List.mem_cons_of_mem _
              (ih (d :: seen) q hq (fun hmem =>
                (List.mem_cons.1 hmem).elim hqd hqs))

/-- Each emitted pair is the FIRST element of the parsed match stream
with its date: the first match string per date wins. -/
theorem absGo_first_wins (p : String → Option PDate) :
    ∀ (ms : List String) (seen : List PDate),
      ∀ q ∈ absGo p ms seen,
        (ms.filterMap (fun s => (p s).map (fun d => (d, s)))).find?
          (fun r => decide (r.1 = q.1)) = some q := by
  intro ms
  induction ms with
  | nil => intro seen q hq; simp [absGo] at hq
  | cons s rest ih =>
    intro seen q hq
    cases hp : p s with
    | none =>
      simp only [absGo, hp] at hq
      simp only [List.filterMap_cons, hp, Option.map_none']
      exact ih seen q hq
    | some d =>
      simp only [List.filterMap_cons, hp, Option.map_some']
      by_cases hd : d ∈ seen
      · simp only [absGo, hp, if_pos hd] at hq
        have hqn : q.1 ∉ seen := (absGo_nodup p rest seen).2 q.1
          (List.mem_map_of_mem Prod.fst hq)
        have hne : d ≠ q.1 := fun hcon => hqn (hcon ▸ hd)
        rw [List.find?_cons_of_neg _ (by simpa using hne)]
        exact ih seen q hq
      · simp only [absGo, hp, if_neg hd] at hq
        rcases List.mem_cons.1 hq with rfl | hq
        · rw [List.find?_cons_of_pos _ (by simp)]
        · have hqn : q.1 ∉ d :: seen := (absGo_nodup p rest (d :: seen)).2 q.1
            (List.mem_map_of_mem Prod.fst hq)
          have hne : d ≠ q.1 := fun hcon => hqn (hcon ▸ List.mem_cons_self d seen)
          rw [List.find?_cons_of_neg _ (by simpa using hne)]
          exact ih (d :: seen) q hq

/-- C6: for every input text, the Date Literal Extractor never emits two
events with the same parsed date; its output is a subsequence of the
parsed match stream (first-seen order); every parsed date appears; and
for each emitted pair the original match string is the one of the FIRST
match resolving to that date. -/
theorem parse_absolute_dates_dedup_first_seen (text : String) :
    ((parse_absolute_dates text).map Prod.fst).Nodup ∧
      List.Sublist (parse_absolute_dates text) (absParsed text) ∧
      (∀ q ∈ absParsed text, q.1 ∈ (parse_absolute_dates text).map Prod.fst) ∧
      ∀ q ∈ parse_absolute_dates text,
        (absParsed text).find? (fun r => decide (r.1 = q.1)) = some q :=
  ⟨(absGo_nodup parseDate (absMatches text) []).1,
   absGo_sublist parseDate (absMatches text) [],
   fun q hq => absGo_covers parseDate (absMatches text) [] q hq (by simp),
   fun q hq => absGo_first_wins parseDate (absMatches text) [] q hq⟩

/-- Witness for C6 on `"1/2/2024 01/02/2024"`: both matches parse to
2024-01-02; only the first is kept, with its original match string. -/
theorem parse_absolute_dates_dedup_first_seen_witness :
    ((parse_absolute_dates "1/2/2024 01/02/2024").map Prod.fst).Nodup ∧
      (⟨2024, 1, 2⟩ : PDate) ∈ (parse_absolute_dates "1/2/2024 01/02/2024").map Prod.fst ∧
      (absParsed "1/2/2024 01/02/2024").find?
          (fun r => decide (r.1 = (⟨2024, 1, 2⟩ : PDate))) = some (⟨2024, 1, 2⟩, "1/2/2024") :=
  ⟨(parse_absolute_dates_dedup_first_seen "1/2/2024 01/02/2024").1,
   (parse_absolute_dates_dedup_first_seen "1/2/2024 01/02/2024").2.2.1
     (⟨2024, 1, 2⟩, "01/02/2024") (by decide),
   (parse_absolute_dates_dedup_first_seen "1/2/2024 01/02/2024").2.2.2
     (⟨2024, 1, 2⟩, "1/2/2024") (by decide)⟩

/-! ## Claim C8: the title reduction. -/

/-- `find?` over a decomposed list: if everything before `kw` fails the
predicate and `kw` satisfies it, `kw` is found. -/
theorem find?_append_first {α : Type} (q : α → Bool) :
    ∀ (pre : List α) (kw : α) (post : List α),
      (∀ k ∈ pre, q k = false) → q kw = true →
        (pre ++ kw :: post).find? q = some kw := by
  intro pre
  induction pre with
  | nil =>
    intro kw post _ hkw
    simpa using List.find?_cons_of_pos post hkw
  | cons a as ih =>
    intro kw post hpre hkw
    rw [List.cons_append, List.find?_cons_of_neg _ (by
      have := hpre a (List.mem_cons_self a as)
      simp [this])]
    exact ih kw post (fun k hk => hpre k (List.mem_cons_of_mem a hk)) hkw

set_option maxRecDepth 8192 in
/-- C8 counterexample: on the window `"a"` followed by 40 spaces, no
keyword occurs and the TRIMMED window (`"a"`, 1 character) is not
truncated, yet the code appends the ellipsis marker because the length
test uses the untrimmed window (41 characters): it returns `"a…"`, not
the full trimmed window `"a"` the claim's fallback clause requires. -/
theorem extract_title_ellipsis_cex :
    (∀ k ∈ KEYWORDS,
        strContains (pyLower ("a" ++ String.mk (List.replicate 40 ' '))) k = false) ∧
      pyStrip ("a" ++ String.mk (List.replicate 40 ' ')) = "a" ∧
      (pyStrip ("a" ++ String.mk (List.replicate 40 ' '))).length ≤ 40 ∧
      extract_title ("a" ++ String.mk (List.replicate 40 ' ')) = "a…" ∧
      extract_title ("a" ++ String.mk (List.replicate 40 ' ')) ≠
        pyStrip ("a" ++ String.mk (List.replicate 40 ' ')) :=
  ⟨by decide, by decide, by decide, by decide, by decide⟩

set_option maxRecDepth 8192 in
/-- C8 as amended: the title reduction returns the capitalized first
match from the ordered keyword list scanned case-insensitively; when no
keyword is present it returns the trimmed window truncated to 40
characters, appending the ellipsis marker exactly when the UNTRIMMED
window exceeds 40 characters (even if the trimmed window needed no
truncation), else the full trimmed window; and on the text
`"...the Final Exam is due..."` with label `"due"` and window 80 it
returns `"Exam"`. -/
theorem extract_title_keyword_and_fallback (context kw : String)
    (pre post : List String) :
    ((∀ k ∈ KEYWORDS, strContains (pyLower context) k = false) →
        extract_title context =
          if 40 < context.length then (pyStrip context).take 40 ++ "…"
          else pyStrip context) ∧
      (KEYWORDS = pre ++ kw :: post → strContains (pyLower context) kw = true →
        (∀ k ∈ pre, strContains (pyLower context) k = false) →
        extract_title context = pyCapitalize kw) ∧
      extract_title (window_context "...the Final Exam is due..." "due" 80) = "Exam" := by
  refine ⟨fun hnone => ?_, fun hdec hkw hpre => ?_, by decide⟩
  · unfold extract_title
    rw [List.find?_eq_none.2 (fun k hk => by simp [hnone k hk])]
  · unfold extract_title
    rw [hdec, find?_append_first _ pre kw post hpre hkw]

/-- Witness for C8 (amended): a keyword hit (`"quiz"`, preceded only by
`"assignment"` which is absent) and a no-keyword fallback on a short
window. -/
theorem extract_title_keyword_and_fallback_witness :
    extract_title "hello  quiz" = pyCapitalize "quiz" ∧
      extract_title (String.mk (List.replicate 50 'b')) =
        (pyStrip (String.mk (List.replicate 50 'b'))).take 40 ++ "…" := by
  constructor
  · exact (extract_title_keyword_and_fallback "hello  quiz" "quiz" ["assignment"]
      ["midterm", "exam", "presentation", "project", "lab"]).2.1 rfl (by decide) (by decide)
  · have h := (extract_title_keyword_and_fallback (String.mk (List.replicate 50 'b'))
      "quiz" [] []).1 (by decide)
    rw [h, if_pos (by decide)]

/-! ## Claim C1: order of the table and the ISO string sort key. -/

/-- Lexicographic comparison ignores an equal head. -/
theorem charsLe_cons_same (c : Char) (xs ys : List Char) :
    charsLe (c :: xs) (c :: ys) = charsLe xs ys := by
  simp [charsLe]

/-- `charsLe` is total. -/
theorem charsLe_total : ∀ (a b : List Char), charsLe a b = true ∨ charsLe b a = true
  | [], _ => Or.inl rfl
  | _ :: _, [] => Or.inr rfl
  | a :: as, b :: bs => by
    rcases Nat.lt_trichotomy a.toNat b.toNat with h | h | h
    · left
      simp only [charsLe]
      rw [if_pos h]
    · rcases charsLe_total as bs with ht | ht
      · left
        simp only [charsLe]
        rw [if_neg (by omega), if_neg (by omega)]
        exact ht
      · right
        simp only [charsLe]
        rw [if_neg (by omega), if_neg (by omega)]
        exact ht
    · right
      simp only [charsLe]
      rw [if_pos h]

/-- `charsLe` is transitive. -/
theorem charsLe_trans : ∀ (a b c : List Char),
    charsLe a b = true → charsLe b c = true → charsLe a c = true
  | [], _, _, _, _ => rfl
  | _ :: _, [], _, h1, _ => by simp [charsLe] at h1
  | _ :: _, _ :: _, [], _, h2 => by simp [charsLe] at h2
  | a :: as, b :: bs, c :: cs, h1, h2 => by
    simp only [charsLe] at h1 h2 ⊢
    by_cases hab : a.toNat < b.toNat
    · by_cases hbc : b.toNat < c.toNat
      · rw [if_pos (by omega)]
      · by_cases hcb : c.toNat < b.toNat
        · rw [if_neg hbc, if_pos hcb] at h2
          exact Bool.noConfusion h2
        · rw [if_pos (by omega)]
    · by_cases hba : b.toNat < a.toNat
      · rw [if_neg hab, if_pos hba] at h1
        exact Bool.noConfusion h1
      · rw [if_neg hab, if_neg hba] at h1
        by_cases hbc : b.toNat < c.toNat
        · rw [if_pos (by omega)]
        · by_cases hcb : c.toNat < b.toNat
          · rw [if_neg hbc, if_pos hcb] at h2
            exact Bool.noConfusion h2
          · rw [if_neg hbc, if_neg hcb] at h2
            rw [if_neg (by omega), if_neg (by omega)]
            exact charsLe_trans as bs cs h1 h2

/-- Members of `insertRow le x l` are `x` or members of `l`. -/
theorem mem_insertRow {α : Type} (le : α → α → Bool) (x : α) :
    ∀ (l : List α) (z : α), z ∈ insertRow le x l → z = x ∨ z ∈ l
  | [], z, h => by
    simp only [insertRow, List.mem_singleton] at h
    exact Or.inl h
  | y :: ys, z, h => by
    by_cases hc : le x y
    · simp only [insertRow] at h
      rw [if_pos hc] at h
      exact List.mem_cons.1 h
    · simp only [insertRow] at h
      rw [if_neg hc] at h
      rcases List.mem_cons.1 h with rfl | h
      · exact Or.inr (List.mem_cons_self _ _)
      · rcases mem_insertRow le x ys z h with h | h
        · exact Or.inl h
        · exact Or.inr (List.mem_cons_of_mem _ h)

/-- Inserting into a list sorted by a total transitive comparison keeps it
sorted. -/
theorem pairwise_insertRow {α : Type} (le : α → α → Bool)
    (hT : ∀ a b c, le a b = true → le b c = true → le a c = true)
    (hTot : ∀ a b, le a b = true ∨ le b a = true) (x : α) :
    ∀ (l : List α), l.Pairwise (fun a b => le a b = true) →
      (insertRow le x l).Pairwise (fun a b => le a b = true)
  | [], _ => by simp [insertRow]
  | y :: ys, h => by
    obtain ⟨hy, hys⟩ := List.pairwise_cons.1 h
    by_cases hc : le x y
    · simp only [insertRow]
      rw [if_pos hc]
      refine List.pairwise_cons.2 ⟨?_, h⟩
      intro z hz
      rcases List.mem_cons.1 hz with rfl | hz
      · exact hc
      · exact hT x y z hc (hy z hz)
    · simp only [insertRow]
      rw [if_neg hc]
      refine List.pairwise_cons.2 ⟨?_, pairwise_insertRow le hT hTot x ys hys⟩
      intro z hz
      rcases mem_insertRow le x ys z hz with rfl | hz
      · rcases hTot z y with h1 | h1
        · exact absurd h1 hc
        · exact h1
      · exact hy z hz

/-- The comparison sort produces a list sorted by any total transitive
comparison. -/
theorem pairwise_sortBy {α : Type} (le : α → α → Bool)
    (hT : ∀ a b c, le a b = true → le b c = true → le a c = true)
    (hTot : ∀ a b, le a b = true ∨ le b a = true) :
    ∀ (l : List α), (sortBy le l).Pairwise (fun a b => le a b = true)
  | [] => by simp [sortBy]
  | x :: xs => pairwise_insertRow le hT hTot x _ (pairwise_sortBy le hT hTot xs)

/-- The code point of the digit character. -/
theorem digitChar_toNat (n : Nat) (h : n ≤ 9) : (digitChar n).toNat = 48 + n := by
  interval_cases n <;> decide

/-- Lexicographic comparison of two equal-width zero-padded decimal
renderings (with arbitrary continuations) is numeric comparison, and the
continuations are compared exactly when the numbers coincide. -/
theorem padLe : ∀ (w a b : Nat) (s t : List Char), a < 10 ^ w → b < 10 ^ w →
    charsLe (padC w a ++ s) (padC w b ++ t) = if a = b then charsLe s t else decide (a ≤ b)
  | 0, a, b, s, t, ha, hb => by
    have ha0 : a = 0 := by simpa using ha
    have hb0 : b = 0 := by simpa using hb
    subst ha0
    subst hb0
    simp [padC]
  | w + 1, a, b, s, t, ha, hb => by
    have hApos : 0 < 10 ^ w := pow_pos (by norm_num) w
    have hpow : (10:Nat) ^ (w + 1) = 10 * 10 ^ w := by ring
    rw [hpow] at ha hb
    have hq1 : a / 10 ^ w ≤ 9 := by
      have := (Nat.div_lt_iff_lt_mul hApos).2 ha
      omega
    have hq2 : b / 10 ^ w ≤ 9 := by
      have := (Nat.div_lt_iff_lt_mul hApos).2 hb
      omega
    have hr1 : a % 10 ^ w < 10 ^ w := Nat.mod_lt _ hApos
    have hr2 : b % 10 ^ w < 10 ^ w := Nat.mod_lt _ hApos
    show charsLe (digitChar (a / 10 ^ w) :: (padC w (a % 10 ^ w) ++ s))
        (digitChar (b / 10 ^ w) :: (padC w (b % 10 ^ w) ++ t)) =
      if a = b then charsLe s t else decide (a ≤ b)
    rcases Nat.lt_trichotomy (a / 10 ^ w) (b / 10 ^ w) with hlt | heq | hgt
    · have h1 : 10 ^ w * (a / 10 ^ w + 1) ≤ 10 ^ w * (b / 10 ^ w) :=
        Nat.mul_le_mul_left _ (by omega)
      have h2 : 10 ^ w * (a / 10 ^ w + 1) = 10 ^ w * (a / 10 ^ w) + 10 ^ w := by ring
      rw [h2] at h1
      have hda := Nat.div_add_mod a (10 ^ w)
      have hdb := Nat.div_add_mod b (10 ^ w)
      have hab : a < b := by
        generalize hX : 10 ^ w * (a / 10 ^ w) = X at h1 hda
        generalize hY : 10 ^ w * (b / 10 ^ w) = Y at h1 hdb
        omega
      simp only [charsLe]
      rw [digitChar_toNat _ hq1, digitChar_toNat _ hq2]
      rw [if_pos (by omega), if_neg (show a ≠ b by omega)]
      exact (decide_eq_true (show a ≤ b by omega)).symm
    · have hdeq : digitChar (a / 10 ^ w) = digitChar (b / 10 ^ w) := by rw [heq]
      rw [hdeq, charsLe_cons_same, padLe w _ _ s t hr1 hr2]
      have hda := Nat.div_add_mod a (10 ^ w)
      have hdb := Nat.div_add_mod b (10 ^ w)
      rw [heq] at hda
      have hiffe : (a % 10 ^ w = b % 10 ^ w) ↔ a = b := by
        generalize hX : 10 ^ w * (b / 10 ^ w) = X at hda hdb
        omega
      have hiffle : (a % 10 ^ w ≤ b % 10 ^ w) ↔ a ≤ b := by
        generalize hX : 10 ^ w * (b / 10 ^ w) = X at hda hdb
        omega
      by_cases hab : a = b
      · rw [if_pos (hiffe.2 hab), if_pos hab]
      · rw [if_neg (fun hc => hab (hiffe.1 hc)), if_neg hab]
        exact decide_eq_decide.2 hiffle
    · have h1 : 10 ^ w * (b / 10 ^ w + 1) ≤ 10 ^ w * (a / 10 ^ w) :=
        Nat.mul_le_mul_left _ (by omega)
      have h2 : 10 ^ w * (b / 10 ^ w + 1) = 10 ^ w * (b / 10 ^ w) + 10 ^ w := by ring
      rw [h2] at h1
      have hda := Nat.div_add_mod a (10 ^ w)
      have hdb := Nat.div_add_mod b (10 ^ w)
      have hba : b < a := by
        generalize hX : 10 ^ w * (b / 10 ^ w) = X at h1 hdb
        generalize hY : 10 ^ w * (a / 10 ^ w) = Y at h1 hda
        omega
      simp only [charsLe]
      rw [digitChar_toNat _ hq1, digitChar_toNat _ hq2]
      rw [if_neg (by omega), if_pos (by omega), if_neg (show a ≠ b by omega)]
      simp [show ¬ (a ≤ b) by omega]

/-- All months have at most 31 days. -/
theorem daysInMonth_le_31 (y m : Nat) : daysInMonth y m ≤ 31 := by
  unfold daysInMonth
  split_ifs <;> omega

/-- For valid dates, the code-point order of the ISO strings coincides
with the calendar order of the dates: sorting the table by the `Date`
string column sorts it by date. -/
theorem iso_charsLe (d1 d2 : PDate) (h1 : d1.Valid) (h2 : d2.Valid) :
    charsLe (isoformat d1).data (isoformat d2).data = PDate.leb d1 d2 := by
  obtain ⟨hy1, hy1b, hm1, hm1b, hd1, hd1b⟩ := h1
  obtain ⟨hy2, hy2b, hm2, hm2b, hd2, hd2b⟩ := h2
  have hdm1 : d1.day < 100 := by
    have := daysInMonth_le_31 d1.year d1.month
    omega
  have hdm2 : d2.day < 100 := by
    have := daysInMonth_le_31 d2.year d2.month
    omega
  have hp4 : (10:Nat) ^ 4 = 10000 := by norm_num
  have hp2 : (10:Nat) ^ 2 = 100 := by norm_num
  show charsLe
      (padC 4 d1.year ++ '-' :: (padC 2 d1.month ++ '-' :: padC 2 d1.day))
      (padC 4 d2.year ++ '-' :: (padC 2 d2.month ++ '-' :: padC 2 d2.day)) =
    PDate.leb d1 d2
  rw [padLe 4 _ _ _ _ (by omega) (by omega)]
  unfold PDate.leb
  by_cases hy : d1.year = d2.year
  · rw [if_pos hy, if_pos hy, charsLe_cons_same]
    rw [padLe 2 _ _ _ _ (by omega) (by omega)]
    by_cases hm : d1.month = d2.month
    · rw [if_pos hm, if_pos hm, charsLe_cons_same]
      rw [show padC 2 d1.day = padC 2 d1.day ++ [] from (List.append_nil _).symm,
          show padC 2 d2.day = padC 2 d2.day ++ [] from (List.append_nil _).symm]
      rw [padLe 2 _ _ [] [] (by omega) (by omega)]
      by_cases hd : d1.day = d2.day
      · rw [if_pos hd]
        exact (decide_eq_true (show d1.day ≤ d2.day by omega)).symm
      · rw [if_neg hd]
    · rw [if_neg hm, if_neg hm]
  · rw [if_neg hy, if_neg hy]

/-- C1 counterexample: from the source text `"Week 3 and Week 3"` (two
references to the same week) the pipeline builds a table with TWO rows
carrying the same date 2024-09-15 — the EventTable can contain duplicate
dates, since neither the week extractor nor the table builder collapses
them. -/
theorem build_calendar_df_duplicate_dates_cex :
    (process "Week 3 and Week 3" ⟨2024, 9, 1⟩ ⟨2024, 12, 15⟩).map Prod.fst =
        ["2024-09-15", "2024-09-15"] ∧
      ¬ ((process "Week 3 and Week 3" ⟨2024, 9, 1⟩ ⟨2024, 12, 15⟩).map Prod.fst).Nodup :=
  ⟨by decide, by decide⟩

/-- C1 as amended: for every input event list and source text the table
built by `build_calendar_df` is sorted ascending by its `Date` column in
the code-point string order the sort uses, and for valid dates that
string order coincides with calendar date order — so the table is
ordered ascending by date; but the table can contain duplicate dates
(events with equal dates are all kept). -/
theorem build_calendar_df_sorted_by_date (events : List (PDate × String))
    (text : String) (d1 d2 : PDate) (h1 : d1.Valid) (h2 : d2.Valid) :
    (build_calendar_df events text).Pairwise (fun r s => dateStrLe r s = true) ∧
      charsLe (isoformat d1).data (isoformat d2).data = PDate.leb d1 d2 := by
  constructor
  · unfold build_calendar_df
    exact pairwise_sortBy dateStrLe
      (fun a b c hab hbc => charsLe_trans _ _ _ hab hbc)
      (fun a b => charsLe_total _ _) _
  · exact iso_charsLe d1 d2 h1 h2

/-- Witness for C1 (amended) at a concrete event list and pair of valid
dates. -/
theorem build_calendar_df_sorted_by_date_witness :
    (build_calendar_df [(⟨2024, 10, 15⟩, "x"), (⟨2024, 9, 15⟩, "y")] "").Pairwise
        (fun r s => dateStrLe r s = true) ∧
      charsLe (isoformat ⟨2024, 9, 15⟩).data (isoformat ⟨2024, 10, 15⟩).data =
        PDate.leb ⟨2024, 9, 15⟩ ⟨2024, 10, 15⟩ :=
  build_calendar_df_sorted_by_date [(⟨2024, 10, 15⟩, "x"), (⟨2024, 9, 15⟩, "y")] ""
    ⟨2024, 9, 15⟩ ⟨2024, 10, 15⟩ (by decide) (by decide)
